import Mathlib

/-!
Verification of the Heisenberg-Hamiltonian builder `ham_heis` (and the Pauli
lookup `sig`) from `quijy/gen.py`, against the module specification.

The source module depends on a linear-algebra collaborator
(`quijy.core`: `qonvert`, `kron`, `eyepad`, `eye`) whose code is not part of
the verified sources; those operations are modelled from the specification
(sparse/dense interchangeability, Kronecker products, embedding with identity
fill).  `ham_heis` itself is translated line by line from `gen.py`.

A matrix is modelled as a carried dimension together with a total entry
function `ℕ → ℕ → ℂ` that is zero outside the `dim × dim` block (the usual
infinite-support model of a finite square matrix, which avoids dependent
index types while keeping every claim about entries and dimensions exact).
-/

open Complex

/-- A square complex matrix: a carried dimension plus a total entry function,
zero outside the `dim × dim` block. -/
structure QMat where
  dim : ℕ
  entry : ℕ → ℕ → ℂ

theorem QMat.ext_here {A B : QMat} (hd : A.dim = B.dim)
    (he : ∀ i j, A.entry i j = B.entry i j) : A = B := by
  cases A
  cases B
  simp only [QMat.mk.injEq]
  exact ⟨hd, funext fun i => funext fun j => he i j⟩

/-- Modelled from the spec: the collaborator's identity operator `eye(d)`. -/
def eye (d : ℕ) : QMat :=
  ⟨d, fun i j => if i = j ∧ i < d then 1 else 0⟩

/-- Modelled from the spec: the collaborator's Kronecker product `kron(A, B)`
(big-endian site ordering, as in numpy/scipy `kron`). -/
def kron (A B : QMat) : QMat :=
  ⟨A.dim * B.dim, fun i j =>
    A.entry (i / B.dim) (j / B.dim) * B.entry (i % B.dim) (j % B.dim)⟩

/-- Scalar multiplication by a real coefficient (Python `r * M`). -/
def qsmul (r : ℝ) (A : QMat) : QMat :=
  ⟨A.dim, fun i j => (r : ℂ) * A.entry i j⟩

/-- Matrix addition (Python `M + N`; operands always share a dimension). -/
def qadd (A B : QMat) : QMat :=
  ⟨A.dim, fun i j => A.entry i j + B.entry i j⟩

/-- Matrix subtraction (Python `M - N`). -/
def qsub (A B : QMat) : QMat :=
  ⟨A.dim, fun i j => A.entry i j - B.entry i j⟩

/-- Pauli X, the value `qonvert([[0, 1], [1, 0]])` built by `sig`. -/
def pauliX : QMat :=
  ⟨2, fun i j =>
    if i = 0 ∧ j = 1 then 1 else if i = 1 ∧ j = 0 then 1 else 0⟩

/-- Pauli Y, the value `qonvert([[0, -1j], [1j, 0]])` built by `sig`. -/
def pauliY : QMat :=
  ⟨2, fun i j =>
    if i = 0 ∧ j = 1 then -I else if i = 1 ∧ j = 0 then I else 0⟩

/-- Pauli Z, the value `qonvert([[1, 0], [0, -1]])` built by `sig`. -/
def pauliZ : QMat :=
  ⟨2, fun i j =>
    if i = 0 ∧ j = 0 then 1 else if i = 1 ∧ j = 1 then -1 else 0⟩

/-- The identity returned by `sig` for the codes `0, 'i', 'I'`. -/
def pauliId : QMat := eye 2

/-- The argument type accepted by `sig`: an integer code or a string code. -/
inductive PArg where
  | int (k : ℤ)
  | str (s : String)
deriving DecidableEq

/-- `sig(xyz)` from `gen.py`: an if/elif chain over the recognized codes,
with no final `else`, so an unrecognized argument yields Python `None`
(modelled as `Option.none`). -/
def sig (xyz : PArg) : Option QMat :=
  if xyz = .int 1 ∨ xyz = .str "x" ∨ xyz = .str "X" then some pauliX
  else if xyz = .int 2 ∨ xyz = .str "y" ∨ xyz = .str "Y" then some pauliY
  else if xyz = .int 3 ∨ xyz = .str "z" ∨ xyz = .str "Z" then some pauliZ
  else if xyz = .int 0 ∨ xyz = .str "i" ∨ xyz = .str "I" then some pauliId
  else none

/-- The full set of argument values recognized by `sig`. -/
def sigRecognized : List PArg :=
  [.int 1, .str "x", .str "X", .int 2, .str "y", .str "Y",
   .int 3, .str "z", .str "Z", .int 0, .str "i", .str "I"]

/-- Modelled from the spec: the collaborator's `eyepad(op, dims, inds)`
recursion — walk the list of site dimensions, placing a copy of `op` at each
listed site index and an identity factor elsewhere, combining with `kron`. -/
def eyepadAux (op : QMat) (inds : List ℕ) : List ℕ → ℕ → QMat
  | [], _ => eye 1
  | d :: ds, j => kron (if j ∈ inds then op else eye d) (eyepadAux op inds ds (j + 1))

/-- Modelled from the spec: `eyepad(op, dims, inds)` — embed `op` into the
tensor-product space described by `dims`, at the site position(s) `inds`,
with identity fill elsewhere. -/
def eyepad (op : QMat) (dims : List ℕ) (inds : List ℕ) : QMat :=
  eyepadAux op inds dims 0

/-- The two-site coupling block `sds` of `ham_heis` (`gen.py` lines 132-135):
`jx*kron(X,X) + jy*kron(Y,Y) + jz*kron(Z,Z) - bz*kron(Z, eye(2))`. -/
def sds (jx jy jz bz : ℝ) : QMat :=
  qsub (qadd (qadd (qsmul jx (kron pauliX pauliX))
                   (qsmul jy (kron pauliY pauliY)))
             (qsmul jz (kron pauliZ pauliZ)))
       (qsmul bz (kron pauliZ (eye 2)))

/-- The sparse accumulation of `ham_heis` (`gen.py` lines 131-143): the field
term on the last site, the loop of nearest-neighbour blocks over
`range(n-1)`, and — when `periodic` — the three unweighted boundary terms
`eyepad(sig(a), dims, [0, n-1])` for `a` in `x, y, z`. -/
def ham_heis_mat (n : ℕ) (jx jy jz bz : ℝ) (periodic : Bool) : QMat :=
  let dims := List.replicate n 2
  let ham0 := eyepad (qsmul (-bz) pauliZ) dims [n - 1]
  let ham1 := (List.range (n - 1)).foldl
      (fun h i => qadd h (eyepad (sds jx jy jz bz) dims.dropLast [i])) ham0
  if periodic then
    qadd (qadd (qadd ham1 (eyepad pauliX dims [0, n - 1]))
               (eyepad pauliY dims [0, n - 1]))
         (eyepad pauliZ dims [0, n - 1])
  else ham1

/-- Representation tag of the returned object: a scipy sparse matrix or a
dense numpy matrix. -/
inductive QRep where
  | sparseRep
  | denseRep
deriving DecidableEq

/-- A matrix together with its representation tag, the value `ham_heis`
returns. -/
structure QObj where
  mat : QMat
  rep : QRep

/-- Modelled from the spec: `todense` converts a sparse matrix to dense form;
the two representations are numerically interchangeable, so only the
representation tag changes. -/
def todense (a : QObj) : QObj := ⟨a.mat, QRep.denseRep⟩

/-- `ham_heis(n, jx, jy, jz, bz, periodic, sparse)` from `gen.py`: always
accumulate in sparse arithmetic, then densify at the very end unless a
sparse result was requested. -/
def ham_heis (n : ℕ) (jx jy jz bz : ℝ) (periodic sparse : Bool) : QObj :=
  let ham : QObj := ⟨ham_heis_mat n jx jy jz bz periodic, QRep.sparseRep⟩
  if sparse then ham else todense ham

/-- Modelled from the spec (§4 step 4, for comparison with the code): the
three boundary terms the spec prescribes, `jx·X₀X_(n-1) + jy·Y₀Y_(n-1) +
jz·Z₀Z_(n-1)`, each embedded across the two boundary sites. -/
def specBoundaryTerms (n : ℕ) (jx jy jz : ℝ) : QMat :=
  qadd (qadd (qsmul jx (eyepad pauliX (List.replicate n 2) [0, n - 1]))
             (qsmul jy (eyepad pauliY (List.replicate n 2) [0, n - 1])))
       (qsmul jz (eyepad pauliZ (List.replicate n 2) [0, n - 1]))

/-- Hermiticity of the infinite-support model: every entry is the conjugate
of its transpose entry. -/
def IsHermitianQ (A : QMat) : Prop :=
  ∀ i j, A.entry i j = starRingEnd ℂ (A.entry j i)

-- Basic simp lemmas for entries and dimensions.

@[simp] theorem eye_dim (d : ℕ) : (eye d).dim = d := rfl

@[simp] theorem eye_entry (d i j : ℕ) :
    (eye d).entry i j = if i = j ∧ i < d then 1 else 0 := rfl

@[simp] theorem kron_dim (A B : QMat) : (kron A B).dim = A.dim * B.dim := rfl

@[simp] theorem kron_entry (A B : QMat) (i j : ℕ) :
    (kron A B).entry i j =
      A.entry (i / B.dim) (j / B.dim) * B.entry (i % B.dim) (j % B.dim) := rfl

@[simp] theorem qsmul_dim (r : ℝ) (A : QMat) : (qsmul r A).dim = A.dim := rfl

@[simp] theorem qsmul_entry (r : ℝ) (A : QMat) (i j : ℕ) :
    (qsmul r A).entry i j = (r : ℂ) * A.entry i j := rfl

@[simp] theorem qadd_dim (A B : QMat) : (qadd A B).dim = A.dim := rfl

@[simp] theorem qadd_entry (A B : QMat) (i j : ℕ) :
    (qadd A B).entry i j = A.entry i j + B.entry i j := rfl

@[simp] theorem qsub_dim (A B : QMat) : (qsub A B).dim = A.dim := rfl

@[simp] theorem qsub_entry (A B : QMat) (i j : ℕ) :
    (qsub A B).entry i j = A.entry i j - B.entry i j := rfl

@[simp] theorem pauliX_dim : pauliX.dim = 2 := rfl

@[simp] theorem pauliY_dim : pauliY.dim = 2 := rfl

@[simp] theorem pauliZ_dim : pauliZ.dim = 2 := rfl

/-- Tensoring with the trivial one-dimensional identity on the right is the
identity operation. -/
theorem kron_eye_one (A : QMat) : kron A (eye 1) = A := by
  refine QMat.ext_here ?_ ?_
  · simp [kron, eye]
  · intro i j
    simp [kron, eye, Nat.div_one, Nat.mod_one]

/-- Independently of the `sparse` flag, the matrix `ham_heis` returns is the
sparse accumulation `ham_heis_mat`. -/
theorem ham_heis_mat_eq (n : ℕ) (jx jy jz bz : ℝ) (periodic sparse : Bool) :
    (ham_heis n jx jy jz bz periodic sparse).mat = ham_heis_mat n jx jy jz bz periodic := by
  cases sparse <;> rfl

/-- The periodic result is definitionally the open result plus the three
unweighted boundary embeddings. -/
theorem ham_heis_mat_periodic_split (n : ℕ) (jx jy jz bz : ℝ) :
    ham_heis_mat n jx jy jz bz true =
      qadd (qadd (qadd (ham_heis_mat n jx jy jz bz false)
                       (eyepad pauliX (List.replicate n 2) [0, n - 1]))
                 (eyepad pauliY (List.replicate n 2) [0, n - 1]))
           (eyepad pauliZ (List.replicate n 2) [0, n - 1]) := rfl

-- Hermiticity of the building blocks.

theorem eye_herm (d : ℕ) : IsHermitianQ (eye d) := by
  intro i j
  simp only [eye_entry]
  by_cases h : i = j
  · subst h
    split <;> simp
  · rw [if_neg, if_neg, map_zero]
    · exact fun hc => h hc.1.symm
    · exact fun hc => h hc.1

theorem pauliX_herm : IsHermitianQ pauliX := by
  intro i j
  simp only [pauliX]
  split_ifs <;> simp_all

theorem pauliY_herm : IsHermitianQ pauliY := by
  intro i j
  simp only [pauliY]
  split_ifs <;> simp_all [Complex.conj_I]

theorem pauliZ_herm : IsHermitianQ pauliZ := by
  intro i j
  simp only [pauliZ]
  split_ifs <;> simp_all

theorem kron_herm {A B : QMat} (hA : IsHermitianQ A) (hB : IsHermitianQ B) :
    IsHermitianQ (kron A B) := by
  intro i j
  simp only [kron_entry, map_mul]
  rw [hA (i / B.dim) (j / B.dim), hB (i % B.dim) (j % B.dim)]

theorem qsmul_herm (r : ℝ) {A : QMat} (hA : IsHermitianQ A) :
    IsHermitianQ (qsmul r A) := by
  intro i j
  simp only [qsmul_entry, map_mul, Complex.conj_ofReal]
  rw [hA i j]

theorem qadd_herm {A B : QMat} (hA : IsHermitianQ A) (hB : IsHermitianQ B) :
    IsHermitianQ (qadd A B) := by
  intro i j
  simp only [qadd_entry, map_add]
  rw [hA i j, hB i j]

theorem qsub_herm {A B : QMat} (hA : IsHermitianQ A) (hB : IsHermitianQ B) :
    IsHermitianQ (qsub A B) := by
  intro i j
  simp only [qsub_entry, map_sub]
  rw [hA i j, hB i j]

theorem eyepadAux_herm {op : QMat} (hop : IsHermitianQ op) (inds : List ℕ) :
    ∀ (dims : List ℕ) (j : ℕ), IsHermitianQ (eyepadAux op inds dims j)
  | [], _ => eye_herm 1
  | d :: ds, j => by
    refine kron_herm ?_ (eyepadAux_herm hop inds ds (j + 1))
    split
    · exact hop
    · exact eye_herm d

theorem eyepad_herm {op : QMat} (hop : IsHermitianQ op) (dims inds : List ℕ) :
    IsHermitianQ (eyepad op dims inds) :=
  eyepadAux_herm hop inds dims 0

theorem sds_herm (jx jy jz bz : ℝ) : IsHermitianQ (sds jx jy jz bz) :=
  qsub_herm
    (qadd_herm
      (qadd_herm (qsmul_herm jx (kron_herm pauliX_herm pauliX_herm))
                 (qsmul_herm jy (kron_herm pauliY_herm pauliY_herm)))
      (qsmul_herm jz (kron_herm pauliZ_herm pauliZ_herm)))
    (qsmul_herm bz (kron_herm pauliZ_herm (eye_herm 2)))

theorem foldl_qadd_herm (f : ℕ → QMat) (hf : ∀ i, IsHermitianQ (f i)) :
    ∀ (l : List ℕ) (h0 : QMat), IsHermitianQ h0 →
      IsHermitianQ (l.foldl (fun h i => qadd h (f i)) h0)
  | [], _, h => h
  | a :: l, _, h => foldl_qadd_herm f hf l _ (qadd_herm h (hf a))

theorem ham_heis_mat_herm (n : ℕ) (jx jy jz bz : ℝ) (periodic : Bool) :
    IsHermitianQ (ham_heis_mat n jx jy jz bz periodic) := by
  have h0 : IsHermitianQ
      (eyepad (qsmul (-bz) pauliZ) (List.replicate n 2) [n - 1]) :=
    eyepad_herm (qsmul_herm (-bz) pauliZ_herm) _ _
  have h1 : IsHermitianQ
      ((List.range (n - 1)).foldl
        (fun h i => qadd h
          (eyepad (sds jx jy jz bz) (List.replicate n 2).dropLast [i]))
        (eyepad (qsmul (-bz) pauliZ) (List.replicate n 2) [n - 1])) := by
    refine foldl_qadd_herm _ ?_ _ _ h0
    intro i
    exact eyepad_herm (sds_herm jx jy jz bz) _ _
  cases periodic
  · exact h1
  · exact qadd_herm
      (qadd_herm (qadd_herm h1 (eyepad_herm pauliX_herm _ _))
                 (eyepad_herm pauliY_herm _ _))
      (eyepad_herm pauliZ_herm _ _)

-- Dimension of the accumulated Hamiltonian.

theorem eyepadAux_dim_two {op : QMat} (hop : op.dim = 2) (inds : List ℕ) :
    ∀ (m j : ℕ), (eyepadAux op inds (List.replicate m 2) j).dim = 2 ^ m
  | 0, _ => rfl
  | m + 1, j => by
    rw [List.replicate_succ]
    show ((if j ∈ inds then op else eye 2).dim *
      (eyepadAux op inds (List.replicate m 2) (j + 1)).dim) = 2 ^ (m + 1)
    rw [eyepadAux_dim_two hop inds m (j + 1), pow_succ]
    split
    · rw [hop, Nat.mul_comm]
    · rw [eye_dim, Nat.mul_comm]

theorem foldl_qadd_dim (f : ℕ → QMat) :
    ∀ (l : List ℕ) (h0 : QMat),
      (l.foldl (fun h i => qadd h (f i)) h0).dim = h0.dim
  | [], _ => rfl
  | a :: l, h0 => foldl_qadd_dim f l (qadd h0 (f a))

theorem ham_heis_mat_dim (n : ℕ) (jx jy jz bz : ℝ) (periodic : Bool) :
    (ham_heis_mat n jx jy jz bz periodic).dim = 2 ^ n := by
  have h0 :
      (eyepad (qsmul (-bz) pauliZ) (List.replicate n 2) [n - 1]).dim = 2 ^ n :=
    eyepadAux_dim_two (by rfl) [n - 1] n 0
  have h1 :
      ((List.range (n - 1)).foldl
        (fun h i => qadd h
          (eyepad (sds jx jy jz bz) (List.replicate n 2).dropLast [i]))
        (eyepad (qsmul (-bz) pauliZ) (List.replicate n 2) [n - 1])).dim = 2 ^ n := by
    rw [foldl_qadd_dim]
    exact h0
  cases periodic
  · exact h1
  · exact h1

@[simp] theorem pauliX_entry (i j : ℕ) :
    pauliX.entry i j =
      if i = 0 ∧ j = 1 then 1 else if i = 1 ∧ j = 0 then 1 else 0 := rfl

@[simp] theorem pauliY_entry (i j : ℕ) :
    pauliY.entry i j =
      if i = 0 ∧ j = 1 then -I else if i = 1 ∧ j = 0 then I else 0 := rfl

@[simp] theorem pauliZ_entry (i j : ℕ) :
    pauliZ.entry i j =
      if i = 0 ∧ j = 0 then 1 else if i = 1 ∧ j = 1 then -1 else 0 := rfl

/-- C4: for every `n`, all real `jx, jy, jz, bz`, and both values of
`periodic` and `sparse`, the matrix returned by `ham_heis` equals its own
conjugate transpose: every entry is the complex conjugate of the transposed
entry. -/
theorem claim_C4_hermitian (n : ℕ) (jx jy jz bz : ℝ) (periodic sparse : Bool) :
    IsHermitianQ (ham_heis n jx jy jz bz periodic sparse).mat := by
  rw [ham_heis_mat_eq]
  exact ham_heis_mat_herm n jx jy jz bz periodic

/-- C5: for every `n`, all real `jx, jy, jz, bz`, and both values of
`periodic` and `sparse`, the matrix returned by `ham_heis` has dimension
exactly `2 ^ n`. -/
theorem claim_C5_dim (n : ℕ) (jx jy jz bz : ℝ) (periodic sparse : Bool) :
    (ham_heis n jx jy jz bz periodic sparse).mat.dim = 2 ^ n := by
  rw [ham_heis_mat_eq]
  exact ham_heis_mat_dim n jx jy jz bz periodic

/-- C6: for every `n`, all real parameters, and both values of `periodic`,
the dense output and the densified sparse output of `ham_heis` are the same
matrix; both modes run the same sparse accumulation, and the dense result is
exactly `todense` of the sparse result, converted only at the end. -/
theorem claim_C6_sparse_dense (n : ℕ) (jx jy jz bz : ℝ) (periodic : Bool) :
    (todense (ham_heis n jx jy jz bz periodic true)).mat =
      (ham_heis n jx jy jz bz periodic false).mat ∧
    (ham_heis n jx jy jz bz periodic true).rep = QRep.sparseRep ∧
    (ham_heis n jx jy jz bz periodic false).rep = QRep.denseRep ∧
    ham_heis n jx jy jz bz periodic false =
      todense (ham_heis n jx jy jz bz periodic true) :=
  ⟨rfl, rfl, rfl, rfl⟩

/-- C7: for all real `jx, jy, jz, bz` and both output modes,
`ham_heis 1 ... periodic=False` returns exactly `-bz · Z`, the 2×2 field
term on the single site. -/
theorem claim_C7_single_site (jx jy jz bz : ℝ) (sparse : Bool) :
    (ham_heis 1 jx jy jz bz false sparse).mat = qsmul (-bz) pauliZ := by
  rw [ham_heis_mat_eq]
  have h : ham_heis_mat 1 jx jy jz bz false =
      kron (qsmul (-bz) pauliZ) (eye 1) := rfl
  rw [h, kron_eye_one]

/-- C10: for every argument outside the recognized code set, `sig` falls
through every branch and returns `none` (rather than a matrix or an error);
and the recognized integer codes map as `1 → X`, `2 → Y`, `3 → Z`,
`0 → identity`. -/
theorem claim_C10_sig_fallthrough (xyz : PArg) (h : xyz ∉ sigRecognized) :
    sig xyz = none ∧ sig (.int 1) = some pauliX ∧ sig (.int 2) = some pauliY ∧
    sig (.int 3) = some pauliZ ∧ sig (.int 0) = some pauliId := by
  refine ⟨?_, rfl, rfl, rfl, rfl⟩
  simp only [sigRecognized, List.mem_cons, List.not_mem_nil, or_false] at h
  push_neg at h
  obtain ⟨h1, hx, hX, h2, hy, hY, h3, hz, hZ, h0, hi, hI⟩ := h
  simp [sig, h1, hx, hX, h2, hy, hY, h3, hz, hZ, h0, hi, hI]

/-- Witness for C10: the unrecognized code `4` falls through to `none`. -/
theorem claim_C10_witness :
    sig (.int 4) = none ∧ sig (.int 1) = some pauliX ∧ sig (.int 2) = some pauliY ∧
    sig (.int 3) = some pauliZ ∧ sig (.int 0) = some pauliId :=
  claim_C10_sig_fallthrough (.int 4) (by decide)

/-- C9 counterexample: `ham_heis` with `n = 0` does not fail with an
invalid-argument error; it silently returns a malformed `1 × 1` matrix (the
empty tensor product), with entry `1` at `(0, 0)`. -/
theorem claim_C9_counterexample :
    (ham_heis 0 1 1 1 0 false false).mat.dim = 1 ∧
    (ham_heis 0 1 1 1 0 false false).mat.entry 0 0 = 1 := by
  constructor
  · rfl
  · rw [ham_heis_mat_eq]
    have h : ham_heis_mat 0 1 1 1 0 false = eye 1 := rfl
    rw [h]
    simp

/-- C9 amended: `ham_heis` performs no validation of `n`; for `n = 0` (the
only value below 1 in the model) it silently returns a `1 × 1` matrix — the
dimension collapses to `2 ^ 0 = 1` — instead of raising a descriptive
invalid-argument error. -/
theorem claim_C9_amended (jx jy jz bz : ℝ) (periodic sparse : Bool) :
    (ham_heis 0 jx jy jz bz periodic sparse).mat.dim = 1 := by
  rw [ham_heis_mat_eq, ham_heis_mat_dim, pow_zero]

/-- C3: for all real `jx, jy, jz, bz` and both output modes, the open chain
on two sites equals
`jx·(X⊗X) + jy·(Y⊗Y) + jz·(Z⊗Z) − bz·(Z⊗I) − bz·(I⊗Z)`. -/
theorem claim_C3_two_site (jx jy jz bz : ℝ) (sparse : Bool) :
    (ham_heis 2 jx jy jz bz false sparse).mat =
      qsub (qsub (qadd (qadd (qsmul jx (kron pauliX pauliX))
                             (qsmul jy (kron pauliY pauliY)))
                       (qsmul jz (kron pauliZ pauliZ)))
                 (qsmul bz (kron pauliZ (eye 2))))
           (qsmul bz (kron (eye 2) pauliZ)) := by
  rw [ham_heis_mat_eq]
  have h : ham_heis_mat 2 jx jy jz bz false =
      qadd (kron (eye 2) (kron (qsmul (-bz) pauliZ) (eye 1)))
           (kron (sds jx jy jz bz) (eye 1)) := rfl
  rw [h, kron_eye_one, kron_eye_one]
  refine QMat.ext_here rfl ?_
  intro i j
  simp only [sds, qadd_entry, qsub_entry, qsmul_entry, kron_entry, qsmul_dim,
    pauliX_dim, pauliY_dim, pauliZ_dim, eye_dim, Complex.ofReal_neg]
  ring

/-- C2 counterexample: the claim says `periodic=True, n = 2` adds no
boundary terms, which would make the periodic and open results equal there;
in the code the `if periodic:` branch has no `n > 2` guard, and the results
differ already at entry `(0, 0)` (the pair is double-counted). -/
theorem claim_C2_counterexample :
    (ham_heis 2 1 1 1 0 true false).mat.entry 0 0 ≠
      (ham_heis 2 1 1 1 0 false false).mat.entry 0 0 := by
  rw [ham_heis_mat_eq, ham_heis_mat_eq, ham_heis_mat_periodic_split 2 1 1 1 0]
  have hx : eyepad pauliX (List.replicate 2 2) [0, 2 - 1] =
      kron pauliX (kron pauliX (eye 1)) := rfl
  have hy : eyepad pauliY (List.replicate 2 2) [0, 2 - 1] =
      kron pauliY (kron pauliY (eye 1)) := rfl
  have hz : eyepad pauliZ (List.replicate 2 2) [0, 2 - 1] =
      kron pauliZ (kron pauliZ (eye 1)) := rfl
  rw [hx, hy, hz]
  simp only [qadd_entry, kron_entry, kron_dim, pauliX_dim, pauliY_dim,
    pauliZ_dim, eye_dim, pauliX_entry, pauliY_entry, pauliZ_entry, eye_entry]
  norm_num

/-- C2 amended: for every `n` and all parameters, the three boundary terms
between site 0 and site `n − 1` are added exactly when `periodic` is true —
there is no `n > 2` guard, so `periodic=True` with `n = 2` also adds them
(double-counting the single pair): the periodic result minus the open result
is always the sum of the three boundary embeddings. -/
theorem claim_C2_amended (n : ℕ) (jx jy jz bz : ℝ) (s1 s2 : Bool) :
    qsub (ham_heis n jx jy jz bz true s1).mat (ham_heis n jx jy jz bz false s2).mat =
      qadd (qadd (eyepad pauliX (List.replicate n 2) [0, n - 1])
                 (eyepad pauliY (List.replicate n 2) [0, n - 1]))
           (eyepad pauliZ (List.replicate n 2) [0, n - 1]) := by
  rw [ham_heis_mat_eq, ham_heis_mat_eq, ham_heis_mat_periodic_split]
  refine QMat.ext_here ?_ ?_
  · simp only [qsub_dim, qadd_dim]
    rw [ham_heis_mat_dim]
    exact (eyepadAux_dim_two rfl [0, n - 1] n 0).symm
  · intro i j
    simp only [qsub_entry, qadd_entry]
    ring

/-- C8: for `n = 3`, `jx = jy = jz = 1`, `bz = 0`, the periodic result minus
the open result is exactly `X₀X₂ + Y₀Y₂ + Z₀Z₂`, each term with identity on
the middle site. -/
theorem claim_C8_n3_boundary (s1 s2 : Bool) :
    qsub (ham_heis 3 1 1 1 0 true s1).mat (ham_heis 3 1 1 1 0 false s2).mat =
      qadd (qadd (kron pauliX (kron (eye 2) pauliX))
                 (kron pauliY (kron (eye 2) pauliY)))
           (kron pauliZ (kron (eye 2) pauliZ)) := by
  rw [ham_heis_mat_eq, ham_heis_mat_eq, ham_heis_mat_periodic_split 3 1 1 1 0]
  have hx : eyepad pauliX (List.replicate 3 2) [0, 3 - 1] =
      kron pauliX (kron (eye 2) (kron pauliX (eye 1))) := rfl
  have hy : eyepad pauliY (List.replicate 3 2) [0, 3 - 1] =
      kron pauliY (kron (eye 2) (kron pauliY (eye 1))) := rfl
  have hz : eyepad pauliZ (List.replicate 3 2) [0, 3 - 1] =
      kron pauliZ (kron (eye 2) (kron pauliZ (eye 1))) := rfl
  rw [hx, hy, hz]
  simp only [kron_eye_one]
  refine QMat.ext_here ?_ ?_
  · simp only [qsub_dim, qadd_dim]
    rw [ham_heis_mat_dim]
    norm_num
  · intro i j
    simp only [qsub_entry, qadd_entry]
    ring

/-- C1: at `n = 3`, `jx = 2`, `jy = jz = 1`, `bz = 0`, the boundary terms the
code adds (the periodic-minus-open difference) have entry `0` at `(0, 5)`,
while the spec-prescribed boundary terms `jx·X₀X₂ + jy·Y₀Y₂ + jz·Z₀Z₂` have
entry `jx − jy = 1` there: the code omits the coupling coefficients on the
boundary terms. -/
theorem claim_C1_boundary_coeffs :
    (qsub (ham_heis 3 2 1 1 0 true false).mat
          (ham_heis 3 2 1 1 0 false false).mat).entry 0 5 = 0 ∧
    (specBoundaryTerms 3 2 1 1).entry 0 5 = 1 := by
  have hx : eyepad pauliX (List.replicate 3 2) [0, 3 - 1] =
      kron pauliX (kron (eye 2) (kron pauliX (eye 1))) := rfl
  have hy : eyepad pauliY (List.replicate 3 2) [0, 3 - 1] =
      kron pauliY (kron (eye 2) (kron pauliY (eye 1))) := rfl
  have hz : eyepad pauliZ (List.replicate 3 2) [0, 3 - 1] =
      kron pauliZ (kron (eye 2) (kron pauliZ (eye 1))) := rfl
  constructor
  · rw [ham_heis_mat_eq, ham_heis_mat_eq, ham_heis_mat_periodic_split 3 2 1 1 0,
      hx, hy, hz]
    simp only [qsub_entry, qadd_entry, kron_entry, kron_dim, pauliX_dim,
      pauliY_dim, pauliZ_dim, eye_dim, pauliX_entry, pauliY_entry,
      pauliZ_entry, eye_entry]
    norm_num
  · rw [specBoundaryTerms, hx, hy, hz]
    simp only [qadd_entry, qsmul_entry, kron_entry, kron_dim, pauliX_dim,
      pauliY_dim, pauliZ_dim, eye_dim, pauliX_entry, pauliY_entry,
      pauliZ_entry, eye_entry]
    norm_num
